import Mathlib

/-!
Verification development for the distributed coverage planner
(`polygon_split.py`, `pairwise_reopt.py`, `reopt_recursion.py`,
`optimizer/chi_optimizer.py`, `polygons.py`).

The geometric primitives (shapely predicates, the chi cost metric, the
adjacency builder) are external collaborators of the code under study; they
are modelled as oracle parameters.  All control flow, candidate scoring,
sorting, sampling, and mutation logic is translated directly from the
Python sources.  Python floats are modelled by `ℚ` (arc-length distances)
and by `ℤ` (abstract chi cost values produced by the external cost oracle).
-/

namespace CoveragePlanner

/-! ## Stable sorts

`sorted(xs, key=lambda v: v[1], reverse=False/True)` in Python is a stable
sort by the second component.  It is modelled by a stable insertion sort:
an element is inserted behind every earlier element whose key does not force
a swap, so equal-keyed elements keep their original order, exactly as
Python's Timsort guarantees. -/

/-- Stable ascending insertion (by the `ℤ` second component). -/
def insAsc (x : ℕ × ℤ) : List (ℕ × ℤ) → List (ℕ × ℤ)
  | [] => [x]
  | y :: ys => if y.2 < x.2 then y :: insAsc x ys else x :: y :: ys

/-- Model of `sorted(xs, key=lambda v: v[1], reverse=False)`. -/
def sortAscBySnd : List (ℕ × ℤ) → List (ℕ × ℤ)
  | [] => []
  | x :: xs => insAsc x (sortAscBySnd xs)

/-- Stable descending insertion (by the `ℤ` second component). -/
def insDesc (x : ℕ × ℤ) : List (ℕ × ℤ) → List (ℕ × ℤ)
  | [] => [x]
  | y :: ys => if x.2 < y.2 then y :: insDesc x ys else x :: y :: ys

/-- Model of `sorted(xs, key=lambda v: v[1], reverse=True)`. -/
def sortDescBySnd : List (ℕ × ℤ) → List (ℕ × ℤ)
  | [] => []
  | x :: xs => insDesc x (sortDescBySnd xs)

/-! ## List helpers -/

/-- Concatenation of a list of lists (the flattening performed implicitly by
`itertools.product`, which yields the rows of the cartesian square in order). -/
def flattenL : List (List α) → List α
  | [] => []
  | l :: ls => l ++ flattenL ls

/-- `itertools.product(l, repeat=2)`: all ordered pairs in row-major order. -/
def productPairs (l : List α) : List (α × α) :=
  flattenL (l.map (fun a => l.map (fun b => (a, b))))

/-- `numpy.linspace(a, b, n)`: `n` evenly spaced values from `a` to `b`,
*both endpoints included* (numpy's default `endpoint=True`). -/
def linspace (a b : ℚ) (n : ℕ) : List ℚ :=
  if n = 0 then []
  else if n = 1 then [a]
  else (List.range n).map (fun i : ℕ => a + (i : ℚ) * ((b - a) / ((n : ℚ) - 1)))

/-- Arc-length position on a closed ring of perimeter `L`, for distances in
`[0, L]`: `shapely`'s `LineString.interpolate` on the closed exterior ring
sends distance `L` back to the ring's start point.  Used to build concrete
instances of the interpolation oracle. -/
def ringPos (L d : ℚ) : ℚ := if L ≤ d then d - L else d

/-! ## Shapely geometry models

Rings, polygons and the geometry-typed results that the Python code
inspects (`type(x) is MultiPoint`, truthiness, `len`).  Point coordinates
are abstract (`Pt`); the geometric predicates themselves are oracles. -/

/-- A shapely `LinearRing`: its coordinate list (closed, i.e. the first
point is repeated at the end, as `shapely` stores it) and its orientation
flag `is_ccw`. -/
structure SRing (Pt : Type) where
  coords : List Pt
  ccw : Bool
deriving DecidableEq

/-- A shapely `Polygon`: truthiness flag (`bool(p)` is `not p.is_empty`),
exterior ring, interior (hole) rings. -/
structure SPoly (Pt : Type) where
  isEmptyP : Bool
  exterior : SRing Pt
  interiors : List (SRing Pt)
deriving DecidableEq

/-- A polygon in the repository's canonical form
`[exteriorRing, [holeRing, ...]]` (open rings: last point ≠ first point). -/
abbrev CanonPoly (Pt : Type) := List Pt × List (List Pt)

/-- The result of `LinearRing.intersection(LineString)`, classified the way
`polygon_split.parameters_valid` inspects it: Python truthiness, a
`type(...) is MultiPoint` test, and `len(...)`. -/
inductive SGeom (Pt : Type) where
  | emptyGeom
  | point (p : Pt)
  | multiPoint (ps : List Pt)
  | lineString
  | multiLineString
  | geometryCollection
deriving DecidableEq

/-- Python truthiness of a shapely geometry: `not is_empty`. -/
def sgeomTruthy : SGeom Pt → Bool
  | .emptyGeom => false
  | .multiPoint ps => !ps.isEmpty
  | _ => true

/-- `type(g) is MultiPoint`. -/
def sgeomIsMultiPoint : SGeom Pt → Bool
  | .multiPoint _ => true
  | _ => false

/-- `len(g)` for a `MultiPoint` (the only case in which the source calls
`len`, guarded by the preceding type test). -/
def sgeomLen : SGeom Pt → ℕ
  | .multiPoint ps => ps.length
  | _ => 0

/-- The result of `LinearRing.difference(LineString)`, classified the way
`polygon_split` inspects it: either a `MultiLineString` (a list of pieces,
each a coordinate list) or some other geometry type. -/
inductive SDiff (Pt : Type) where
  | multiLine (pieces : List (List Pt))
  | otherGeom
deriving DecidableEq

/-- `polygon_split.convert_to_canonical`: exterior reversed when not ccw and
the duplicated closing point dropped (`[::-1][:-1]` / `[:-1]`), each hole
reversed when ccw and its closing point dropped.  (The `type(P) is not
Polygon` early return of the source sits under the `DEBUG_LEVEL & 0x04`
guard and is unreachable with the module's `DEBUG_LEVEL = 0`; the input here
is Polygon-typed.) -/
def convertToCanonical (p : SPoly Pt) : CanonPoly Pt :=
  let ext :=
    if !p.exterior.ccw then p.exterior.coords.reverse.dropLast
    else p.exterior.coords.dropLast
  let holes := p.interiors.map (fun hole =>
    if hole.ccw then hole.coords.reverse.dropLast else hole.coords.dropLast)
  (ext, holes)

/-- `pairwise_reopt.poly_shapely_to_canonical`, translated exactly as
written: the `if not polygon: return []` guard, the exterior kept (or
reversed) *with its duplicated closing point*, and each hole entry built
from `polygon.exterior.coords` (the source reads the exterior's coordinates
inside the hole loop). -/
def polyShapelyToCanonical (p : SPoly Pt) : Option (CanonPoly Pt) :=
  if p.isEmptyP then none
  else
    let polyExterior :=
      if p.exterior.ccw then p.exterior.coords else p.exterior.coords.reverse
    let holes := p.interiors.map (fun hole =>
      if hole.ccw then p.exterior.coords.reverse else p.exterior.coords)
    some (polyExterior, holes)

/-! ## The Polygon Split Engine (`polygon_split.py`) -/

/-- Oracles for the primitive shapely operations used by `polygon_split`. -/
structure SplitOracles (Pt : Type) where
  /-- `Polygon(*polygon).is_valid` on the canonical input. -/
  polygonValid : CanonPoly Pt → Bool
  /-- `LinearRing(extr).intersection(LineString(splitLine))`. -/
  ringChordIntersection : List Pt → List Pt → SGeom Pt
  /-- `type(pPol.union(splitLineLS)) is Polygon`. -/
  unionIsPolygon : CanonPoly Pt → List Pt → Bool
  /-- `splitLineLS.intersects(LinearRing(hole))`. -/
  chordIntersectsHole : List Pt → List Pt → Bool
  /-- `LinearRing(extr).difference(splitLineLS)`. -/
  ringChordDifference : List Pt → List Pt → SDiff Pt
  /-- `Polygon(line).is_valid` for a mask ring. -/
  maskValid : List Pt → Bool
  /-- `Polygon(line).is_simple` for a mask ring. -/
  maskSimple : List Pt → Bool
  /-- `pPol.intersection(mask)`, assumed Polygon-typed (a non-Polygon result
  would crash `convert_to_canonical`, a path not exercised here). -/
  intersectMask : CanonPoly Pt → List Pt → SPoly Pt

/-- Outcome of `polygon_split`: `failure` is the `return []` path, `ok` the
two-polygon result, `crash` an uncaught Python exception (e.g. the
`splitBoundary[1]` IndexError when the difference has fewer than two
pieces). -/
inductive SplitResult (Pt : Type) where
  | failure
  | ok (p q : CanonPoly Pt)
  | crash
deriving DecidableEq

/-- `polygon_split.inputs_valid` on the canonical, well-typed representation
(the list-shape tests `not polygon or len(polygon) != 2` always pass for a
typed pair and are omitted; their dynamically-typed version is
`inputsValidDyn` below). -/
def inputsValid (o : SplitOracles Pt) (polygon : CanonPoly Pt) (splitLine : List Pt) : Bool :=
  if splitLine.isEmpty then false
  else if splitLine.length ≠ 2 then false
  else if polygon.1.isEmpty then false
  else o.polygonValid polygon

/-- `polygon_split.parameters_valid`: truthiness of the intersection, the
`MultiPoint` type test, the `len > 2` test, the crude
`type(union) is Polygon` outside-test, and the hole-crossing loop, in
source order. -/
def parametersValid (o : SplitOracles Pt) (commonPts : SGeom Pt)
    (holes : List (List Pt)) (splitLine : List Pt) (pPol : CanonPoly Pt) : Bool :=
  if !sgeomTruthy commonPts then false
  else if !sgeomIsMultiPoint commonPts then false
  else if 2 < sgeomLen commonPts then false
  else if !o.unionIsPolygon pPol splitLine then false
  else if holes.any (fun hole => o.chordIntersectsHole splitLine hole) then false
  else true

/-- The mask construction and final intersection stage of `polygon_split`
(from `mask1 = Polygon(line1)` to the end). -/
def splitMasks [DecidableEq Pt] (o : SplitOracles Pt) (pPol : CanonPoly Pt)
    (line1 line2 : List Pt) : SplitResult Pt :=
  if !o.maskValid line1 || !o.maskSimple line1 then .failure
  else if !o.maskValid line2 || !o.maskSimple line2 then .failure
  else
    .ok (convertToCanonical (o.intersectMask pPol line1))
      (convertToCanonical (o.intersectMask pPol line2))

/-- `polygon_split.polygon_split`, stage by stage: input validation, the
boundary intersection and its `parameters_valid` checks, the boundary
difference with the three-piece wraparound merge, the mask validation and
the final intersections. -/
def polygonSplit [DecidableEq Pt] [Inhabited Pt] (o : SplitOracles Pt)
    (polygon : CanonPoly Pt) (splitLine : List Pt) : SplitResult Pt :=
  if !inputsValid o polygon splitLine then .failure
  else
    let commonPts := o.ringChordIntersection polygon.1 splitLine
    if !parametersValid o commonPts polygon.2 splitLine polygon then .failure
    else
      match o.ringChordDifference polygon.1 splitLine with
      | .otherGeom => .failure
      | .multiLine pieces =>
        if 3 < pieces.length then .failure
        else
          match pieces with
          | l1 :: l2 :: _restPieces =>
            if pieces.length = 3 then
              -- wraparound case: merge first and last pieces after the
              -- endpoint sanity check
              if (l1.headD default) ≠ ((pieces.getLastD []).getLastD default) then .failure
              else splitMasks o polygon ((l1 ++ pieces.getLastD []).dropLast) l2
            else splitMasks o polygon l1 l2
          | _ => .crash

/-! ## Dynamically-typed view of `polygon_split`'s entry

`polygon_split` documents its `polygon` argument as a canonical 2-list and
its `splitLine` as a list of two coordinate tuples, but `pairwise_reopt.
compute_pairwise_optimal` passes it shapely `Polygon` and `LineString`
*objects* (lines 189 and 237).  Python's `len()` raises `TypeError` on a
non-multipart shapely geometry, so the call raises instead of returning the
documented `[]`.  The small dynamic-value model below captures exactly the
truthiness and `len` behaviour that `inputs_valid` exercises. -/

/-- The shapely object kinds that reach `polygon_split` from
`pairwise_reopt`. -/
inductive PyGeomKind where
  | lineStringK
  | polygonK
deriving DecidableEq

/-- A Python value as far as `inputs_valid` inspects one: a list, a
coordinate tuple, or a (non-multipart) shapely geometry object carrying its
`is_empty` flag. -/
inductive PyVal (Pt : Type) where
  | listV (elems : List (PyVal Pt))
  | ptV (p : Pt)
  | geomV (kind : PyGeomKind) (isEmptyG : Bool)

/-- The Python exceptions modelled here. -/
inductive PyErr where
  | typeError
deriving DecidableEq

/-- Python `len(v)`: defined for lists and coordinate tuples, raises
`TypeError` for a (non-multipart) shapely geometry, which defines no
`__len__`. -/
def pyLen : PyVal Pt → Except PyErr ℕ
  | .listV l => .ok l.length
  | .ptV _ => .ok 2
  | .geomV _ _ => .error .typeError

/-- Python truthiness: non-emptiness for lists, `not is_empty` for shapely
geometries, true for a coordinate tuple. -/
def pyTruthy : PyVal Pt → Bool
  | .listV l => !l.isEmpty
  | .ptV _ => true
  | .geomV _ e => !e

/-- First element of a (non-empty) Python list; the fallback is unreachable
on the paths exercised (guarded by the preceding `len` checks). -/
def pyFirst : PyVal Pt → PyVal Pt
  | .listV (a :: _) => a
  | _ => .listV []

/-- Second element of a Python list of length two; fallback as in
`pyFirst`. -/
def pySecond : PyVal Pt → PyVal Pt
  | .listV (_ :: b :: _) => b
  | _ => .listV []

/-- Decode a Python coordinate list into the typed ring representation
(reached only after the dynamic shape checks have passed). -/
def decodeRing : PyVal Pt → List Pt
  | .listV l => l.filterMap (fun v => match v with | .ptV p => some p | _ => none)
  | _ => []

/-- Decode a Python canonical polygon (`[extr, holes]`) into the typed
representation. -/
def decodePoly (v : PyVal Pt) : CanonPoly Pt :=
  (decodeRing (pyFirst v),
   match pySecond v with
   | .listV hs => hs.map decodeRing
   | _ => [])

/-- `polygon_split.inputs_valid` with Python's dynamic typing: the guards in
source order, each `len(...)` able to raise `TypeError`.  `Polygon(*polygon)
.is_valid` is the oracle `o.polygonValid` applied to the decoded polygon. -/
def inputsValidDyn (o : SplitOracles Pt) (polygon splitLine : PyVal Pt) :
    Except PyErr Bool :=
  if !pyTruthy splitLine then .ok false
  else
    match pyLen splitLine with
    | .error e => .error e
    | .ok n =>
      if n ≠ 2 then .ok false
      else if !pyTruthy polygon then .ok false
      else
        match pyLen polygon with
        | .error e => .error e
        | .ok m =>
          if m ≠ 2 then .ok false
          else if !pyTruthy (pyFirst polygon) then .ok false
          else .ok (o.polygonValid (decodePoly polygon))

/-- `polygon_split` behind Python's dynamic typing: an exception raised by
`inputs_valid` propagates to the caller; otherwise the typed pipeline
`polygonSplit` runs on the decoded arguments. -/
def polygonSplitDyn [DecidableEq Pt] [Inhabited Pt] (o : SplitOracles Pt)
    (polygon splitLine : PyVal Pt) : Except PyErr (SplitResult Pt) :=
  match inputsValidDyn o polygon splitLine with
  | .error e => .error e
  | .ok false => .ok .failure
  | .ok true => .ok (polygonSplit o (decodePoly polygon) (decodeRing splitLine))

/-! ## The Pairwise Boundary Optimizer
(`ChiOptimizer.compute_pairwise_optimal`, `optimizer/chi_optimizer.py`)

Polygons, sites and sample points are abstract types; the shapely
predicates, the union, the chi cost and the `utils.polygon_split` helper
(spec §4.1: `split(polygon, chord) -> Result<(Polygon, Polygon), SplitError>`;
`utils.py` is not under `src/`) are oracle fields. -/

/-- A Python `Optional` return of the optimizer, keeping Python's three-way
distinction that the recursive driver tests (`result is None` vs the falsy
`[]` vs a real pair). -/
inductive PairwiseRes (Pol : Type) where
  | nonePy
  | emptyPy
  | split (p q : Pol)
deriving DecidableEq

/-- Oracles and instance state for `ChiOptimizer.compute_pairwise_optimal`. -/
structure PairwiseCtx (Pol St Pt : Type) where
  /-- `self.num_samples` (set to `50` in `ChiOptimizer.__init__`). -/
  numSamples : ℕ
  /-- `self.cost_func` — the external chi oracle with the tuning parameters
  already bound (`partial(compute_chi, ...)`). -/
  cost : Pol → St → ℤ
  /-- `bool(polygon)` (`not polygon_a` guard). -/
  polyTruthy : Pol → Bool
  /-- `bool(point)` (`not robot_a_init_pos` guard). -/
  siteTruthy : St → Bool
  /-- `polygon.is_valid`. -/
  isValid : Pol → Bool
  /-- `polygon.is_simple`. -/
  isSimple : Pol → Bool
  /-- `polygon_a.touches(polygon_b)`. -/
  touches : Pol → Pol → Bool
  /-- `isinstance(polygon_a.intersection(polygon_b), LineString)`. -/
  intersectionIsLineString : Pol → Pol → Bool
  /-- `polygon_a.union(polygon_b)`. -/
  union : Pol → Pol → Pol
  /-- `isinstance(polygon_union, Polygon)`. -/
  unionIsPolygonType : Pol → Bool
  /-- `polygon.exterior.length`. -/
  exteriorLength : Pol → ℚ
  /-- `polygon.exterior.interpolate(distance)`. -/
  interpolate : Pol → ℚ → Pt
  /-- `utils.polygon_split(polygon_union, LineString(cut_edge))`; `none` is
  the falsy no-result. -/
  splitAt : Pol → Pt × Pt → Option (Pol × Pol)

/-- The candidate search space: `num_samples` points interpolated at the
distances `linspace(0, exterior.length, num_samples)` along the union's
exterior boundary. -/
def searchSpace (ctx : PairwiseCtx Pol St Pt) (U : Pol) : List Pt :=
  (linspace 0 (ctx.exteriorLength U) ctx.numSamples).map (ctx.interpolate U)

/-- One candidate's score: both cross-assignments of the two halves to the
two sites are evaluated and the cheaper `max` is kept
(`min(max(chi_a0, chi_b1), max(chi_a1, chi_b0))`). -/
def candScore (ctx : PairwiseCtx Pol St Pt) (sa sb : St) (p0 p1 : Pol) : ℤ :=
  min (max (ctx.cost p0 sa) (ctx.cost p1 sb)) (max (ctx.cost p1 sa) (ctx.cost p0 sb))

/-- The `if min_max_chi <= min_max_chi_final` accumulator update of the
candidate loop.  The accumulator `none` models the initial
`min_max_chi_final = sys.float_info.max` (every chi value, being a finite
float, is below it, so the first success always replaces it). -/
def scanUpdate (cutEdge : Pt × Pt) (minMaxChi : ℤ) :
    Option ((Pt × Pt) × ℤ) → Option ((Pt × Pt) × ℤ)
  | none => some (cutEdge, minMaxChi)
  | some best => if minMaxChi ≤ best.2 then some (cutEdge, minMaxChi) else some best

/-- The candidate loop of `compute_pairwise_optimal`: failed splits are
skipped; a successful candidate replaces the running best exactly when its
score is `<=` the running minimum. -/
def scanCandidates (ctx : PairwiseCtx Pol St Pt) (U : Pol) (sa sb : St) :
    List (Pt × Pt) → Option ((Pt × Pt) × ℤ) → Option ((Pt × Pt) × ℤ)
  | [], acc => acc
  | cutEdge :: rest, acc =>
    match ctx.splitAt U cutEdge with
    | none => scanCandidates ctx U sa sb rest acc
    | some pq =>
      scanCandidates ctx U sa sb rest
        (scanUpdate cutEdge (candScore ctx sa sb pq.1 pq.2) acc)

/-- The successful candidates of the scan, with their scores, in generation
order. -/
def successScores (ctx : PairwiseCtx Pol St Pt) (U : Pol) (sa sb : St)
    (cs : List (Pt × Pt)) : List ((Pt × Pt) × ℤ) :=
  cs.filterMap (fun c => (ctx.splitAt U c).map (fun pq => (c, candScore ctx sa sb pq.1 pq.2)))

/-- One step of `lastArgmin`: an element beats the winner of the later
elements only with a strictly smaller score. -/
def lastArgminStep {α : Type} (x : α × ℤ) : Option (α × ℤ) → Option (α × ℤ)
  | none => some x
  | some y => if x.2 < y.2 then some x else some y

/-- Specification-side description of the winner: the *last* element
achieving the minimal score (an earlier element wins only with a strictly
smaller score). -/
def lastArgmin {α : Type} : List (α × ℤ) → Option (α × ℤ)
  | [] => none
  | x :: xs => lastArgminStep x (lastArgmin xs)

/-- `ChiOptimizer.compute_pairwise_optimal` (lines 191–315): the guard
cascade (including the duplicated validity check of the source), the union,
the sampling, the candidate scan, the strict `<` no-improvement test
against `init_max_chi`, and the final re-split of the winning chord. -/
def computePairwiseOptimal (ctx : PairwiseCtx Pol St Pt)
    (pa pb : Pol) (sa sb : St) : PairwiseRes Pol :=
  if !ctx.polyTruthy pa || !ctx.polyTruthy pb then .nonePy
  else if !ctx.siteTruthy sa || !ctx.siteTruthy sb then .nonePy
  else if !ctx.isValid pa || !ctx.isValid pb then .nonePy
  else if !ctx.isValid pa || !ctx.isValid pb then .nonePy
  else if !ctx.isSimple pa || !ctx.isSimple pb then .nonePy
  else if !ctx.touches pa pb then .nonePy
  else if !ctx.intersectionIsLineString pa pb then .nonePy
  else
    let U := ctx.union pa pb
    if !ctx.isValid U || !ctx.isSimple U then .nonePy
    else if !ctx.unionIsPolygonType U then .nonePy
    else
      let initMaxChi := max (ctx.cost pa sa) (ctx.cost pb sb)
      match scanCandidates ctx U sa sb (productPairs (searchSpace ctx U)) none with
      | none =>
        -- no candidate ever succeeded: `min_max_chi_final` is still the
        -- float maximum, `init_max_chi < min_max_chi_final` holds, `None`
        .nonePy
      | some best =>
        if initMaxChi < best.2 then .nonePy
        else
          match ctx.splitAt U best.1 with
          | none => .emptyPy
          | some pq => .split pq.1 pq.2

/-! ## The Recursive Reoptimization Driver
(`ChiOptimizer.dft_recursion`, `optimizer/chi_optimizer.py` lines 97–189)

The decomposition is a list of `(polygon, site)` cells indexed by cell id.
Writing `decomposition[i] = poly` is modelled from the spec:
`Decomposition.__setitem__` lives in `decomposition.py`, which is not under
`src/`; spec §3 (lifecycle) says a commit "replaces exactly two cells'
polygons per successful operation, preserving their ids and reassigning
sites per the winning assignment", i.e. the cell keeps its id and site and
receives the assigned polygon.

The recursion is given a fuel parameter: `outOfFuel` is returned when the
nesting depth exceeds the fuel, and the termination theorem shows fuel
`numberOfCells + 1` is never exhausted.  `nameError` models the Python
`NameError` raised by line 181, which references the undefined variable
`cell_idx`. -/

/-- The decomposition: cell id `i` holds `(polygon, site)` at index `i`. -/
abbrev Decomp (Pol St : Type) := List (Pol × St)

/-- Oracles for the driver: the chi cost, the pairwise optimizer result
(three-way, see `PairwiseRes`), and the external adjacency oracle. -/
structure DriverCtx (Pol St : Type) where
  cost : Pol → St → ℤ
  pairwise : Pol → Pol → St → St → PairwiseRes Pol
  computeAdjacency : Decomp Pol St → List (List Bool)

/-- `decomposition[i]` (Python raises IndexError out of range; all uses here
are in range, witnessed by hypotheses on adjacency-row lengths). -/
def cellAt [Inhabited Pol] [Inhabited St] (d : Decomp Pol St) (i : ℕ) : Pol × St :=
  d.getD i default

/-- `self.cost_func(*decomposition[i])`. -/
def cellCost [Inhabited Pol] [Inhabited St] (ctx : DriverCtx Pol St)
    (d : Decomp Pol St) (i : ℕ) : ℤ :=
  ctx.cost (cellAt d i).1 (cellAt d i).2

/-- `[cell_id for cell_id, is_adjacent in enumerate(adjacency_matrix[v]) if
is_adjacent]`. -/
def neighborIds (row : List Bool) : List ℕ :=
  row.enum.filterMap (fun x => if x.2 then some x.1 else none)

/-- The neighbor cost list `[(cell_id, cost(cell_id)) for ...]`, sorted
ascending by cost. -/
def sortedNeighborCosts [Inhabited Pol] [Inhabited St] (ctx : DriverCtx Pol St)
    (d : Decomp Pol St) (row : List Bool) : List (ℕ × ℤ) :=
  sortAscBySnd ((neighborIds row).map (fun i => (i, cellCost ctx d i)))

/-- Driver outcome: `done mutated finalDecomp` is an ordinary return,
`nameError` the uncaught `NameError` of line 181, `outOfFuel` an exhausted
fuel bound. -/
inductive DftOutcome (Pol St : Type) where
  | outOfFuel
  | nameError
  | done (mutated : Bool) (d : Decomp Pol St)
deriving DecidableEq

/-- The neighbor loop of `dft_recursion` (the `for cell_id, cell_chi_cost in
sorted_neighbor_chi_costs` body).  `recur` is the recursive call with one
fuel unit consumed; the decomposition is threaded because the Python list is
aliased across the recursion.  On a successful pairwise result the four chi
values are computed and the assignment minimizing the max is written —
except that the swapped branch of the source is
`decomposition[cell_idx], decomposition[max_vertex_id] = result` with
`cell_idx` undefined, a `NameError`.  (The `adjacency_matrix =
compute_adjacency(decomposition)` rebinding just before `return True` only
rebinds a local and is unobservable.) -/
def dftLoop [Inhabited Pol] [Inhabited St] (ctx : DriverCtx Pol St)
    (recur : Decomp Pol St → ℕ → DftOutcome Pol St) (v : ℕ) (vcost : ℤ) :
    List (ℕ × ℤ) → Decomp Pol St → DftOutcome Pol St
  | [], d => .done false d
  | (cellId, cellChiCost) :: rest, d =>
    if cellChiCost < vcost then
      match ctx.pairwise (cellAt d v).1 (cellAt d cellId).1
          (cellAt d v).2 (cellAt d cellId).2 with
      | .nonePy =>
        match recur d cellId with
        | .outOfFuel => .outOfFuel
        | .nameError => .nameError
        | .done true d' => .done true d'
        | .done false d' => dftLoop ctx recur v vcost rest d'
      | .emptyPy =>
        -- result is falsy but not None: neither branch fires, next neighbor
        dftLoop ctx recur v vcost rest d
      | .split p0 p1 =>
        let chiA0 := ctx.cost p0 (cellAt d v).2
        let chiA1 := ctx.cost p1 (cellAt d v).2
        let chiB0 := ctx.cost p0 (cellAt d cellId).2
        let chiB1 := ctx.cost p1 (cellAt d cellId).2
        if max chiA0 chiB1 ≤ max chiA1 chiB0 then
          .done true ((d.set v (p0, (cellAt d v).2)).set cellId (p1, (cellAt d cellId).2))
        else
          -- `decomposition[cell_idx], ... = result`: NameError (undefined
          -- variable `cell_idx`)
          .nameError
    else dftLoop ctx recur v vcost rest d

/-- `ChiOptimizer.dft_recursion`: compute the current cell's cost and the
ascending-sorted neighbor costs, then run the neighbor loop. -/
def dftRecursion [Inhabited Pol] [Inhabited St] (ctx : DriverCtx Pol St) :
    ℕ → Decomp Pol St → List (List Bool) → ℕ → DftOutcome Pol St
  | 0, _, _, _ => .outOfFuel
  | fuel + 1, d, adj, v =>
    dftLoop ctx (fun d' cellId => dftRecursion ctx fuel d' adj cellId) v
      (cellCost ctx d v) (sortedNeighborCosts ctx d (adj.getD v [])) d

/-! ## The prototype driver (`reopt_recursion.dft_recursion`,
`reopt_recursion.py` lines 90–203)

Here the decomposition is a plain list of canonical polygons and the sites
come from `cellToSiteMap`.  Adjacency rows hold `None` or an edge value;
only `is not None` is inspected, so rows are modelled as `List Bool`.
The module-level `DEBUG_LEVEL` is `0` (set by the module's own main block,
its only in-repo caller), so every debug branch is skipped.  On a truthy
pairwise result the cells are overwritten directly and `True` is returned;
on a falsy result the function recurses, and — unlike the
`chi_optimizer.py` version — a `True` from the recursive call only
`break`s the loop, after which the function falls through to
`return False`. -/

/-- Oracles for the prototype driver. -/
structure ReoptCtx (Pol St : Type) where
  cost : Pol → St → ℤ
  pairwise : Pol → Pol → St → St → Option (Pol × Pol)
  siteMap : ℕ → St

/-- `decomposition[i]` for the polygon-list decomposition. -/
def polyAt [Inhabited Pol] (d : List Pol) (i : ℕ) : Pol := d.getD i default

/-- `compute_chi(polygon=decomposition[i], initPos=cellToSiteMap[i], ...)`. -/
def reoptCellCost [Inhabited Pol] (ctx : ReoptCtx Pol St) (d : List Pol) (i : ℕ) : ℤ :=
  ctx.cost (polyAt d i) (ctx.siteMap i)

/-- The neighbor loop of `reopt_recursion.dft_recursion`.  `none` is an
exhausted fuel bound; `some (b, d)` is an ordinary `return b` with final
decomposition state `d`. -/
def reoptLoop [Inhabited Pol] (ctx : ReoptCtx Pol St)
    (recur : List Pol → ℕ → Option (Bool × List Pol)) (v : ℕ) (vcost : ℤ) :
    List (ℕ × ℤ) → List Pol → Option (Bool × List Pol)
  | [], d => some (false, d)
  | (cellIdx, cellChiCost) :: rest, d =>
    if cellChiCost < vcost then
      match ctx.pairwise (polyAt d v) (polyAt d cellIdx)
          (ctx.siteMap v) (ctx.siteMap cellIdx) with
      | some pq =>
        -- `decomposition[maxVertexIdx], decomposition[cellIdx] = result;
        --  return True`
        some (true, (d.set v pq.1).set cellIdx pq.2)
      | none =>
        match recur d cellIdx with
        | none => none
        | some (true, d') =>
          -- `break`, then fall through the loop to `return False`
          some (false, d')
        | some (false, d') => reoptLoop ctx recur v vcost rest d'
    else reoptLoop ctx recur v vcost rest d

/-- `reopt_recursion.dft_recursion`. -/
def reoptDftRecursion [Inhabited Pol] (ctx : ReoptCtx Pol St) :
    ℕ → List Pol → List (List Bool) → ℕ → Option (Bool × List Pol)
  | 0, _, _, _ => none
  | fuel + 1, d, adj, v =>
    reoptLoop ctx (fun d' cellIdx => reoptDftRecursion ctx fuel d' adj cellIdx) v
      (reoptCellCost ctx d v)
      (sortAscBySnd ((neighborIds (adj.getD v [])).map (fun i => (i, reoptCellCost ctx d i))))
      d

/-! ## The Iteration Controller (`ChiOptimizer.run_iterations`,
`optimizer/chi_optimizer.py` lines 44–95)

`get_sorted_costs` builds the `(cell_id, cost)` snapshot sorted descending
by cost.  `run_iterations` loops `num_iterations` times; on iteration `0`
it records the snapshot as `original_chi_costs`; each round it recomputes
adjacency and starts the driver at `sorted_chi_costs[0][0]`.  The driver is
abstracted as a function argument (its embedding is `dftRecursion` above);
only the mutated decomposition it leaves behind matters to the controller.
If the loop body never ran, the final `return original_chi_costs, ...`
raises `UnboundLocalError`; if the decomposition is empty,
`sorted_chi_costs[0]` raises `IndexError`. -/

/-- `ChiOptimizer.get_sorted_costs`. -/
def getSortedCosts (ctx : DriverCtx Pol St) (d : Decomp Pol St) : List (ℕ × ℤ) :=
  sortDescBySnd (d.enum.map (fun x => (x.1, ctx.cost x.2.1 x.2.2)))

/-- The driver as the controller sees it: decomposition, adjacency matrix
and start cell id in, `(mutated?, decomposition)` out. -/
abbrev DriverFun (Pol St : Type) := Decomp Pol St → List (List Bool) → ℕ → Bool × Decomp Pol St

/-- Outcome of `run_iterations`. -/
inductive RunOutcome (Pol St : Type) where
  | unboundLocalError
  | indexError
  | ok (before after : List (ℕ × ℤ)) (final : Decomp Pol St)
deriving DecidableEq

/-- The loop of `run_iterations`: `orig` holds `original_chi_costs` once
iteration `0` has stored it. -/
def runIterationsAux (ctx : DriverCtx Pol St) (driver : DriverFun Pol St) :
    ℕ → Decomp Pol St → Option (List (ℕ × ℤ)) → RunOutcome Pol St
  | 0, d, orig =>
    match orig with
    | none => .unboundLocalError
    | some o => .ok o (getSortedCosts ctx d) d
  | n + 1, d, orig =>
    let s := getSortedCosts ctx d
    let orig' := match orig with | none => some s | some o => some o
    if s.isEmpty then .indexError
    else
      let d' := (driver d (ctx.computeAdjacency d) (s.headD (0, 0)).1).2
      runIterationsAux ctx driver n d' orig'

/-- `ChiOptimizer.run_iterations` with `num_iterations = n`. -/
def runIterations (ctx : DriverCtx Pol St) (driver : DriverFun Pol St)
    (n : ℕ) (d : Decomp Pol St) : RunOutcome Pol St :=
  runIterationsAux ctx driver n d none

/-- One controller round: snapshot, adjacency, driver started at the first
entry of the descending snapshot. -/
def controllerRound (ctx : DriverCtx Pol St) (driver : DriverFun Pol St)
    (d : Decomp Pol St) : Decomp Pol St :=
  (driver d (ctx.computeAdjacency d) ((getSortedCosts ctx d).headD (0, 0)).1).2

/-! ## Auxiliary specification-side definitions -/

/-- All guards of `compute_pairwise_optimal` that precede the sampling
stage, bundled (used to state theorems about the post-guard behaviour). -/
def pairGuardsOk (ctx : PairwiseCtx Pol St Pt) (pa pb : Pol) (sa sb : St) : Bool :=
  ctx.polyTruthy pa && ctx.polyTruthy pb &&
  ctx.siteTruthy sa && ctx.siteTruthy sb &&
  ctx.isValid pa && ctx.isValid pb &&
  ctx.isSimple pa && ctx.isSimple pb &&
  ctx.touches pa pb && ctx.intersectionIsLineString pa pb &&
  ctx.isValid (ctx.union pa pb) && ctx.isSimple (ctx.union pa pb) &&
  ctx.unionIsPolygonType (ctx.union pa pb)

/-- Number of cells whose chi cost is strictly below cell `v`'s: the
termination measure of the driver's depth-first recursion. -/
def lowerCount [Inhabited Pol] [Inhabited St] (ctx : DriverCtx Pol St)
    (d : Decomp Pol St) (v : ℕ) : ℕ :=
  ((Finset.range d.length).filter (fun i => cellCost ctx d i < cellCost ctx d v)).card

/-! ## Concrete instances

Small concrete oracles used as the explicit inputs of counterexamples and
witnesses.  Polygons, sites and sample points are encoded as natural-number
tags; the cost oracles assign the chi values that drive each scenario. -/

/-- Driver instance for the swapped-assignment scenario: the pair `(0, 1)`
reoptimizes into halves `7, 8`, and the *swapped* pairing
(`7 → cell 1`, `8 → cell 0`) is the cheaper one. -/
def ctx1 : DriverCtx ℕ ℕ where
  cost := fun p s =>
    if p = 0 ∧ s = 100 then 10
    else if p = 1 ∧ s = 101 then 5
    else if p = 7 ∧ s = 100 then 9
    else if p = 8 ∧ s = 101 then 9
    else if p = 8 ∧ s = 100 then 3
    else if p = 7 ∧ s = 101 then 3
    else 0
  pairwise := fun pa pb _ _ => if pa = 0 ∧ pb = 1 then .split 7 8 else .nonePy
  computeAdjacency := fun _ => [[false, true], [true, false]]

/-- The two-cell decomposition of the swapped-assignment scenario. -/
def d1 : Decomp ℕ ℕ := [(0, 100), (1, 101)]

/-- Its adjacency matrix. -/
def adj1 : List (List Bool) := [[false, true], [true, false]]

/-- Prototype-driver instance: pairwise fails on `(cell 0, cell 1)` and
succeeds on `(cell 1, cell 2)`, so a nested recursive call mutates the
decomposition. -/
def ctx2 : ReoptCtx ℕ ℕ where
  cost := fun p _ => if p = 10 then 10 else if p = 11 then 5 else if p = 12 then 2 else 0
  pairwise := fun pa pb _ _ => if pa = 11 ∧ pb = 12 then some (21, 22) else none
  siteMap := fun i => i

/-- Three-cell chain decomposition for `ctx2`. -/
def d2 : List ℕ := [10, 11, 12]

/-- Its adjacency matrix (a path `0 – 1 – 2`). -/
def adj2 : List (List Bool) :=
  [[false, true, false], [true, false, true], [false, true, false]]

/-- Trivial split oracles (the dynamic-typing scenario never reaches them). -/
def o3 : SplitOracles ℕ where
  polygonValid := fun _ => true
  ringChordIntersection := fun _ _ => .emptyGeom
  unionIsPolygon := fun _ _ => true
  chordIntersectsHole := fun _ _ => false
  ringChordDifference := fun _ _ => .otherGeom
  maskValid := fun _ => true
  maskSimple := fun _ => true
  intersectMask := fun _ _ => ⟨false, ⟨[], true⟩, []⟩

/-- Pairwise-optimizer instance for the repeated-call scenario: cells `0, 1`
(baseline cost `10` each) merge into union `2`; every candidate chord splits
the union into halves `3, 4`, whose better cross-assignment costs `4`; the
committed halves `3, 4` re-union into the same union `2`. -/
def ctx4 : PairwiseCtx ℕ ℕ ℕ where
  numSamples := 3
  cost := fun p s =>
    if p = 0 ∧ s = 100 then 10
    else if p = 1 ∧ s = 101 then 10
    else if p = 3 ∧ s = 100 then 4
    else if p = 4 ∧ s = 101 then 4
    else if p = 4 ∧ s = 100 then 9
    else if p = 3 ∧ s = 101 then 9
    else 0
  polyTruthy := fun _ => true
  siteTruthy := fun _ => true
  isValid := fun _ => true
  isSimple := fun _ => true
  touches := fun _ _ => true
  intersectionIsLineString := fun _ _ => true
  union := fun a b => if a = 0 ∧ b = 1 then 2 else if a = 3 ∧ b = 4 then 2 else 0
  unionIsPolygonType := fun _ => true
  exteriorLength := fun _ => 4
  interpolate := fun _ _ => 0
  splitAt := fun u _ => if u = 2 then some (3, 4) else none

/-- Split oracles whose boundary intersection is a single `Point` (the
one-intersection-point case). -/
def o5 : SplitOracles ℕ where
  polygonValid := fun _ => true
  ringChordIntersection := fun _ _ => .point 0
  unionIsPolygon := fun _ _ => true
  chordIntersectsHole := fun _ _ => false
  ringChordDifference := fun _ _ => .otherGeom
  maskValid := fun _ => true
  maskSimple := fun _ => true
  intersectMask := fun _ _ => ⟨false, ⟨[], true⟩, []⟩

/-- A canonical triangle (tags) for the `o5` scenario. -/
def poly5 : CanonPoly ℕ := ([1, 2, 3], [])

/-- A two-point chord for the `o5` scenario. -/
def chord5 : List ℕ := [4, 5]

/-- Pairwise-optimizer instance with the source's `num_samples = 50` and a
square union of perimeter `4`, with the interpolation oracle wrapping on the
closed exterior ring (`ringPos`). -/
def ctx7 : PairwiseCtx ℕ ℕ ℚ where
  numSamples := 50
  cost := fun _ _ => 0
  polyTruthy := fun _ => true
  siteTruthy := fun _ => true
  isValid := fun _ => true
  isSimple := fun _ => true
  touches := fun _ _ => true
  intersectionIsLineString := fun _ _ => true
  union := fun _ _ => 0
  unionIsPolygonType := fun _ => true
  exteriorLength := fun _ => 4
  interpolate := fun _ d => ringPos 4 d
  splitAt := fun _ _ => none

/-- Controller instance: one cell, trivial cost and adjacency oracles. -/
def ctx8 : DriverCtx ℕ ℕ where
  cost := fun _ _ => 0
  pairwise := fun _ _ _ _ => .nonePy
  computeAdjacency := fun _ => []

/-- One-cell decomposition for the controller scenario. -/
def d8 : Decomp ℕ ℕ := [(5, 6)]

/-- A driver that never mutates (and hence preserves length). -/
def driver8 : DriverFun ℕ ℕ := fun d _ _ => (false, d)

/-- A ccw unit-square shapely polygon (scaled to integers), with closed
coordinate list as shapely stores it, and one cw triangular hole. -/
def sq9 : SPoly (ℤ × ℤ) where
  isEmptyP := false
  exterior := ⟨[(0, 0), (4, 0), (4, 4), (0, 4), (0, 0)], true⟩
  interiors := [⟨[(1, 1), (1, 2), (2, 1), (1, 1)], false⟩]

/-- The exterior coordinate list of `sq9` (closed). -/
def e9c : List (ℤ × ℤ) := [(0, 0), (4, 0), (4, 4), (0, 4), (0, 0)]

/-- Driver instance for the termination witness: costs are the polygon tags,
no pairwise success. -/
def ctx10 : DriverCtx ℕ ℕ where
  cost := fun p _ => p
  pairwise := fun _ _ _ _ => .nonePy
  computeAdjacency := fun _ => []

/-- Two-cell decomposition for the termination witness. -/
def d10 : Decomp ℕ ℕ := [(3, 0), (1, 0)]

/-- Its adjacency matrix. -/
def adj10 : List (List Bool) := [[false, true], [true, false]]

/-! # Theorems -/

/-- Claim C1: inside the recursive driver, a successful pairwise
optimization is claimed to write the two returned polygons into the cells
`(s, n)` under the pairing minimizing the max cost, atomically.  In the code
(`chi_optimizer.py` line 181), whenever the swapped pairing is the cheaper
one (`max(chi_a0, chi_b1) > max(chi_a1, chi_b0)`), the write references the
undefined variable `cell_idx` and raises `NameError` instead: evaluated on a
concrete two-cell decomposition whose pairwise result `7, 8` is cheaper
swapped, the driver raises. -/
theorem dftRecursion_swapped_assignment_nameError :
    dftRecursion ctx1 2 d1 adj1 0 = .nameError := by decide

/-- Claim C2: the driver is claimed to return `true` iff a mutation
occurred, returning `true` immediately when a recursive call succeeds.  In
`reopt_recursion.dft_recursion`, a `true` from the recursive call only
`break`s the loop and the function falls through to `return False`:
evaluated on a three-cell chain where the nested call on cell `1`
successfully rewrites cells `1` and `2`, the top-level call returns `false`
even though the decomposition was mutated. -/
theorem reoptDftRecursion_false_after_mutation :
    reoptDftRecursion ctx2 2 d2 adj2 0 = some (false, [10, 21, 22]) ∧
    ([10, 21, 22] : List ℕ) ≠ d2 := by decide

/-- Claim C3: every geometric validation failure in the split engine and the
pairwise optimizer is claimed to come back as an empty result, never an
exception.  But `pairwise_reopt.compute_pairwise_optimal` (lines 189, 237)
passes the shapely `polygon_union` and a `LineString` into
`polygon_split`, which expects canonical lists; `inputs_valid` then calls
`len(splitLine)` on a `LineString`, which defines no `__len__`, raising
`TypeError` on every candidate. -/
theorem pairwiseCall_polygonSplit_typeError :
    polygonSplitDyn o3 (PyVal.geomV .polygonK false) (PyVal.geomV .lineStringK false)
      = .error .typeError := rfl

/-- Claim C9: canonical conversions are claimed to drop the duplicated
closing point and to list each hole's own vertices.
`pairwise_reopt.poly_shapely_to_canonical`, applied to a ccw square with one
cw triangular hole, keeps the exterior's duplicated closing point (first
stored point equals last) and fills the hole slot with the *exterior's*
coordinate list instead of the hole's. -/
theorem polyShapelyToCanonical_violations :
    polyShapelyToCanonical sq9 = some (e9c, [e9c]) ∧
    e9c.headD (9, 9) = e9c.getLastD (8, 8) ∧
    e9c ≠ (⟨[(1, 1), (1, 2), (2, 1), (1, 1)], false⟩ : SRing (ℤ × ℤ)).coords := by
  refine ⟨rfl, rfl, ?_⟩
  decide

/-- Claim C4 (counterexample): the claim says that after a committed
success, an immediately repeated call on the resulting pair returns the
no-improvement result (`None`).  On the concrete instance `ctx4` the first
call on `(0, 1)` succeeds with halves `(3, 4)` (score `4`, baseline `10`);
the repeated call on `(3, 4)`, whose baseline equals the still-optimal
score `4`, fails the strict `init_max_chi < min_max_chi_final` test and
returns the same split again — not the no-improvement result. -/
theorem computePairwiseOptimal_second_call_not_noImprovement :
    computePairwiseOptimal ctx4 0 1 100 101 = .split 3 4 ∧
    computePairwiseOptimal ctx4 3 4 100 101 = .split 3 4 ∧
    computePairwiseOptimal ctx4 3 4 100 101 ≠ .nonePy := by decide

/-- Claim C4 (amended): a repeated call on a committed pair whose union
(and hence candidate set and scores) is unchanged does *not* return the
no-improvement result: because the no-improvement test is the strict
`init_max_chi < min_max_chi_final`, any call whose baseline is at least the
best candidate score re-runs the split on the winning chord and returns its
result.  No-improvement is returned only when the baseline is strictly
below every candidate score. -/
theorem computePairwiseOptimal_repeat_returns_same_split
    (ctx : PairwiseCtx Pol St Pt) (p q : Pol) (sa sb : St) (U : Pol)
    (c : Pt × Pt) (s : ℤ)
    (hg : pairGuardsOk ctx p q sa sb = true)
    (hU : ctx.union p q = U)
    (hscan : scanCandidates ctx U sa sb (productPairs (searchSpace ctx U)) none
      = some (c, s))
    (hbase : s ≤ max (ctx.cost p sa) (ctx.cost q sb)) :
    computePairwiseOptimal ctx p q sa sb =
      (match ctx.splitAt U c with
       | none => PairwiseRes.emptyPy
       | some pq => PairwiseRes.split pq.1 pq.2) ∧
    computePairwiseOptimal ctx p q sa sb ≠ .nonePy := by
  simp only [pairGuardsOk, Bool.and_eq_true] at hg
  obtain ⟨⟨⟨⟨⟨⟨⟨⟨⟨⟨⟨⟨h1, h2⟩, h3⟩, h4⟩, h5⟩, h6⟩, h7⟩, h8⟩, h9⟩, h10⟩, h11⟩, h12⟩, h13⟩ := hg
  have hmain : computePairwiseOptimal ctx p q sa sb =
      (match ctx.splitAt U c with
       | none => PairwiseRes.emptyPy
       | some pq => PairwiseRes.split pq.1 pq.2) := by
    unfold computePairwiseOptimal
    rw [hU] at h11 h12 h13 ⊢
    simp only [h1, h2, h3, h4, h5, h6, h7, h8, h9, h10, h11, h12, h13, hU, hscan,
      Bool.not_true, Bool.or_self, Bool.false_or, Bool.or_false, if_false,
      Bool.false_eq_true, if_neg, not_lt.mpr hbase, ite_false]
  refine ⟨hmain, ?_⟩
  rw [hmain]
  cases hsp : ctx.splitAt U c with
  | none => simp
  | some pq => simp

/-- Claim C4 (witness): the amended statement applied to the concrete
repeated call of `ctx4`. -/
theorem computePairwiseOptimal_repeat_witness :
    computePairwiseOptimal ctx4 3 4 100 101 =
      (match ctx4.splitAt 2 (0, 0) with
       | none => PairwiseRes.emptyPy
       | some pq => PairwiseRes.split pq.1 pq.2) ∧
    computePairwiseOptimal ctx4 3 4 100 101 ≠ .nonePy :=
  computePairwiseOptimal_repeat_returns_same_split ctx4 3 4 100 101 2 (0, 0) 4
    (by decide) rfl (by decide) (by decide)

/-- Claim C5: `polygon_split` proceeds past the boundary-intersection check
exactly when the chord/exterior-ring intersection is a discrete two-point
set.  `hshape` is the shapely invariant that an intersection classified as
`MultiPoint` carries at least two points (a single common point comes back
as a `Point`).  First conjunct: on a two-point `MultiPoint`,
`parameters_valid` reduces to the remaining union/hole checks (the boundary
check passes).  Second conjunct: on every other classification — empty, a
single `Point`, a `MultiPoint` of more than two points, or a non-discrete
overlap (`LineString`/`MultiLineString`/`GeometryCollection`) —
`polygon_split` returns the failure result. -/
theorem polygonSplit_boundary_intersection_check [DecidableEq Pt] [Inhabited Pt]
    (g : SGeom Pt) (hshape : ∀ ps : List Pt, g = .multiPoint ps → 2 ≤ ps.length) :
    ((∃ p q : Pt, g = .multiPoint [p, q]) →
      ∀ (o : SplitOracles Pt) (holes : List (List Pt)) (chord : List Pt)
        (pPol : CanonPoly Pt),
        parametersValid o g holes chord pPol =
          (o.unionIsPolygon pPol chord &&
            !(holes.any (fun hole => o.chordIntersectsHole chord hole)))) ∧
    ((¬ ∃ p q : Pt, g = .multiPoint [p, q]) →
      ∀ (o : SplitOracles Pt) (polygon : CanonPoly Pt) (chord : List Pt),
        o.ringChordIntersection polygon.1 chord = g →
        polygonSplit o polygon chord = .failure) := by
  constructor
  · rintro ⟨p, q, rfl⟩ o holes chord pPol
    simp only [parametersValid, sgeomTruthy, sgeomIsMultiPoint, sgeomLen]
    cases h1 : o.unionIsPolygon pPol chord <;>
      cases h2 : holes.any (fun hole => o.chordIntersectsHole chord hole) <;>
      simp [h1, h2]
  · intro hne o polygon chord hint
    have hpv : parametersValid o g polygon.2 chord polygon = false := by
      cases g with
      | emptyGeom => simp [parametersValid, sgeomTruthy]
      | point p => simp [parametersValid, sgeomTruthy, sgeomIsMultiPoint]
      | multiPoint ps =>
        have h2 : 2 ≤ ps.length := hshape ps rfl
        have hne2 : ps.length ≠ 2 := by
          intro hl
          obtain ⟨a, b, rfl⟩ := List.length_eq_two.mp hl
          exact hne ⟨a, b, rfl⟩
        have h3 : 2 < sgeomLen (SGeom.multiPoint ps) := by
          simp only [sgeomLen]; omega
        simp only [parametersValid, h3, if_true]
        cases htr : (!sgeomTruthy (SGeom.multiPoint ps)) <;> simp [h3]
      | lineString => simp [parametersValid, sgeomTruthy, sgeomIsMultiPoint]
      | multiLineString => simp [parametersValid, sgeomTruthy, sgeomIsMultiPoint]
      | geometryCollection => simp [parametersValid, sgeomTruthy, sgeomIsMultiPoint]
    unfold polygonSplit
    cases hiv : inputsValid o polygon chord with
    | false => simp
    | true => simp [hint, hpv]

/-- The winner described by `lastArgmin` is a minimal-score element of the
list (tie lemma used by the scan characterization). -/
theorem lastArgmin_mem_le {α : Type} :
    ∀ (l : List (α × ℤ)) (r : α × ℤ), lastArgmin l = some r →
      r ∈ l ∧ ∀ x ∈ l, r.2 ≤ x.2 := by
  intro l
  induction l with
  | nil => intro r h; simp [lastArgmin] at h
  | cons x xs ih =>
    intro r h
    rw [lastArgmin] at h
    cases hla : lastArgmin xs with
    | none =>
      rw [hla, lastArgminStep, Option.some.injEq] at h
      subst h
      have hxs : xs = [] := by
        cases xs with
        | nil => rfl
        | cons a t =>
          exfalso
          rw [lastArgmin] at hla
          cases hlt : lastArgmin t with
          | none => rw [hlt, lastArgminStep] at hla; cases hla
          | some y =>
            rw [hlt, lastArgminStep] at hla
            by_cases hc : a.2 < y.2 <;> simp [hc] at hla
      subst hxs
      refine ⟨List.mem_cons_self _ _, ?_⟩
      intro z hz
      rcases List.mem_cons.mp hz with rfl | hz'
      · exact le_refl _
      · cases hz'
    | some y =>
      rw [hla, lastArgminStep] at h
      obtain ⟨hymem, hyle⟩ := ih y hla
      by_cases hxy : x.2 < y.2
      · rw [if_pos hxy, Option.some.injEq] at h
        subst h
        refine ⟨List.mem_cons_self _ _, ?_⟩
        intro z hz
        rcases List.mem_cons.mp hz with rfl | hz'
        · exact le_refl _
        · exact le_of_lt (lt_of_lt_of_le hxy (hyle z hz'))
      · rw [if_neg hxy, Option.some.injEq] at h
        subst h
        refine ⟨List.mem_cons_of_mem _ hymem, ?_⟩
        intro z hz
        rcases List.mem_cons.mp hz with rfl | hz'
        · exact le_of_not_lt hxy
        · exact hyle z hz'

/-- The scan with a seeded accumulator equals the right-fold description:
the last-minimum of the remaining successes beats the seed exactly when its
score is `≤` the seed's. -/
theorem scanCandidates_acc (ctx : PairwiseCtx Pol St Pt) (U : Pol) (sa sb : St) :
    ∀ (cs : List (Pt × Pt)) (a : (Pt × Pt) × ℤ),
      scanCandidates ctx U sa sb cs (some a) =
        some (match lastArgmin (successScores ctx U sa sb cs) with
              | none => a
              | some y => if y.2 ≤ a.2 then y else a) := by
  intro cs
  induction cs with
  | nil => intro a; simp [scanCandidates, successScores, lastArgmin]
  | cons c rest ih =>
    intro a
    simp only [scanCandidates]
    cases hsp : ctx.splitAt U c with
    | none =>
      rw [ih a]
      simp [successScores, hsp]
    | some pq =>
      have hsucc : successScores ctx U sa sb (c :: rest) =
          (c, candScore ctx sa sb pq.1 pq.2) :: successScores ctx U sa sb rest := by
        simp [successScores, hsp]
      dsimp only
      rw [hsucc, lastArgmin, scanUpdate]
      generalize candScore ctx sa sb pq.1 pq.2 = s
      by_cases hca : s ≤ a.2
      · rw [if_pos hca, ih]
        cases hla : lastArgmin (successScores ctx U sa sb rest) with
        | none =>
          rw [lastArgminStep]
          simp [hca]
        | some y =>
          rw [lastArgminStep]
          by_cases h1 : (c, s).2 < y.2
          · rw [if_pos h1]
            have hy : ¬ y.2 ≤ (c, s).2 := not_le.mpr h1
            simp [hy, hca]
          · rw [if_neg h1]
            have h2 : y.2 ≤ (c, s).2 := le_of_not_lt h1
            have h3 : y.2 ≤ a.2 := le_trans h2 hca
            simp [h2, h3]
      · rw [if_neg hca, ih]
        cases hla : lastArgmin (successScores ctx U sa sb rest) with
        | none =>
          rw [lastArgminStep]
          simp [hca]
        | some y =>
          rw [lastArgminStep]
          by_cases h1 : (c, s).2 < y.2
          · rw [if_pos h1]
            have hy : ¬ y.2 ≤ a.2 := by
              simp only at h1
              exact not_le.mpr (lt_trans (not_le.mp hca) h1)
            simp [hy, hca]
          · rw [if_neg h1]

/-- Claim C6: in the candidate loop, a candidate whose score is `<=` the
running minimum replaces the running best, so the scan returns exactly the
*last* candidate (in generation order) among those achieving the minimal
score: the scan equals `lastArgmin` of the successful candidates, and that
winner scores `≤` every successful candidate. -/
theorem scanCandidates_last_tie_wins (ctx : PairwiseCtx Pol St Pt) (U : Pol)
    (sa sb : St) (cs : List (Pt × Pt)) :
    scanCandidates ctx U sa sb cs none = lastArgmin (successScores ctx U sa sb cs) ∧
    (∀ r, lastArgmin (successScores ctx U sa sb cs) = some r →
      r ∈ successScores ctx U sa sb cs ∧
        ∀ x ∈ successScores ctx U sa sb cs, r.2 ≤ x.2) := by
  refine ⟨?_, fun r h => lastArgmin_mem_le _ r h⟩
  induction cs with
  | nil => simp [scanCandidates, successScores, lastArgmin]
  | cons c rest ih =>
    simp only [scanCandidates]
    cases hsp : ctx.splitAt U c with
    | none =>
      rw [ih]
      simp [successScores, hsp]
    | some pq =>
      have hsucc : successScores ctx U sa sb (c :: rest) =
          (c, candScore ctx sa sb pq.1 pq.2) :: successScores ctx U sa sb rest := by
        simp [successScores, hsp]
      dsimp only
      rw [hsucc, scanUpdate, scanCandidates_acc, lastArgmin]
      generalize candScore ctx sa sb pq.1 pq.2 = s
      cases hla : lastArgmin (successScores ctx U sa sb rest) with
      | none =>
        rw [lastArgminStep]
      | some y =>
        rw [lastArgminStep]
        by_cases h1 : y.2 ≤ (c, s).2
        · have h2 : ¬ (c, s).2 < y.2 := not_lt.mpr h1
          rw [if_neg h2]
          simp [h1]
        · have h2 : (c, s).2 < y.2 := not_le.mp h1
          rw [if_pos h2]
          simp [h1]

/-- Claim C5 (witness): on oracles whose boundary intersection is a single
`Point` — the one-intersection-point case — `polygon_split` returns the
failure result, by the boundary-check theorem applied at `o5`. -/
theorem polygonSplit_boundary_check_witness :
    polygonSplit o5 poly5 chord5 = SplitResult.failure :=
  (polygonSplit_boundary_intersection_check (SGeom.point 0)
      (fun _ h => nomatch h)).2
    (by rintro ⟨p, q, h⟩; exact nomatch h) o5 poly5 chord5 rfl

/-- `getD` of an append, index inside the left part. -/
theorem getD_append_left {β : Type} (l1 l2 : List β) (dflt : β) :
    ∀ j, j < l1.length → (l1 ++ l2).getD j dflt = l1.getD j dflt := by
  induction l1 with
  | nil => intro j h; simp at h
  | cons a t ih =>
    intro j h
    cases j with
    | zero => simp
    | succ k =>
      simp only [List.cons_append, List.getD_cons_succ]
      exact ih k (by simpa using h)

/-- `getD` of an append, index past the left part. -/
theorem getD_append_right_len {β : Type} (l1 l2 : List β) (dflt : β) :
    ∀ k, (l1 ++ l2).getD (l1.length + k) dflt = l2.getD k dflt := by
  induction l1 with
  | nil => intro k; simp
  | cons a t ih =>
    intro k
    have : (a :: t).length + k = (t.length + k) + 1 := by simp; omega
    rw [this]
    simp only [List.cons_append, List.getD_cons_succ]
    exact ih k

/-- `getD` through a `map`, for an in-range index. -/
theorem getD_map_of_lt {α β : Type} (f : α → β) (dfa : α) (dfb : β) :
    ∀ (l : List α) (i : ℕ), i < l.length → (l.map f).getD i dfb = f (l.getD i dfa) := by
  intro l
  induction l with
  | nil => intro i h; simp at h
  | cons x t ih =>
    intro i h
    cases i with
    | zero => simp
    | succ k =>
      simp only [List.map_cons, List.getD_cons_succ]
      exact ih k (by simpa using h)

/-- Length of a uniform-row flattening. -/
theorem flattenL_length_uniform {α β : Type} (f : α → List β) (m : ℕ)
    (hf : ∀ a, (f a).length = m) :
    ∀ l : List α, (flattenL (l.map f)).length = l.length * m := by
  intro l
  induction l with
  | nil => simp [flattenL]
  | cons a t ih =>
    simp only [List.map_cons, flattenL, List.length_append, ih, hf, List.length_cons]
    ring

/-- Row-major indexing of a uniform-row flattening. -/
theorem flattenL_getD_uniform {α β : Type} [Inhabited α] (f : α → List β) (m : ℕ)
    (hf : ∀ a, (f a).length = m) (dflt : β) :
    ∀ (l : List α) (i j : ℕ), i < l.length → j < m →
      (flattenL (l.map f)).getD (i * m + j) dflt = (f (l.getD i default)).getD j dflt := by
  intro l
  induction l with
  | nil => intro i j hi _; simp at hi
  | cons a t ih =>
    intro i j hi hj
    cases i with
    | zero =>
      simp only [List.map_cons, flattenL, Nat.zero_mul, Nat.zero_add]
      rw [getD_append_left _ _ _ j (by rw [hf]; exact hj)]
      simp
    | succ k =>
      simp only [List.map_cons, flattenL]
      have harith : (k + 1) * m + j = (f a).length + (k * m + j) := by rw [hf]; ring
      rw [harith, getD_append_right_len, ih k j (by simpa using hi) hj]
      simp

/-- Length of `linspace` in its generic (`n ≥ 2`) branch. -/
theorem linspace_length (a b : ℚ) (n : ℕ) (h2 : 2 ≤ n) : (linspace a b n).length = n := by
  unfold linspace
  rw [if_neg (by omega), if_neg (by omega), List.length_map, List.length_range]

/-- The `i`-th `linspace` sample. -/
theorem linspace_getD (a b : ℚ) (n i : ℕ) (h2 : 2 ≤ n) (hi : i < n) :
    (linspace a b n).getD i 0 = a + (i : ℚ) * ((b - a) / ((n : ℚ) - 1)) := by
  unfold linspace
  rw [if_neg (by omega), if_neg (by omega),
    getD_map_of_lt _ 0 _ _ i (by rw [List.length_range]; exact hi),
    List.getD_eq_getElem _ _ (by rw [List.length_range]; exact hi)]
  simp

/-- Claim C7 (amended): the optimizer samples exactly `sampleCount` points
at equal arc-length spacing, but the spacing is `perimeter/(sampleCount-1)`
and the `linspace` is inclusive of both endpoints, so under the closed-ring
wrap the first and the last of the `sampleCount` samples land on the *same*
boundary point (one position is duplicated); it then enumerates exactly
`sampleCount²` ordered pairs of samples in row-major order. -/
theorem searchSpace_sampling_spec [Inhabited Pt] (ctx : PairwiseCtx Pol St Pt)
    (U : Pol) (n : ℕ) (L : ℚ)
    (hn : ctx.numSamples = n) (h2 : 2 ≤ n) (hL : ctx.exteriorLength U = L)
    (hwrap : ctx.interpolate U L = ctx.interpolate U 0) :
    (searchSpace ctx U).length = n ∧
    (∀ i, i + 1 < n →
      (linspace 0 L n).getD (i + 1) 0 - (linspace 0 L n).getD i 0 = L / ((n : ℚ) - 1)) ∧
    (searchSpace ctx U).getD 0 default = (searchSpace ctx U).getD (n - 1) default ∧
    (productPairs (searchSpace ctx U)).length = n * n ∧
    (∀ i j, i < n → j < n →
      (productPairs (searchSpace ctx U)).getD (i * n + j) (default, default) =
        ((searchSpace ctx U).getD i default, (searchSpace ctx U).getD j default)) := by
  have hss : searchSpace ctx U = (linspace 0 L n).map (ctx.interpolate U) := by
    rw [searchSpace, hn, hL]
  have hlen : (searchSpace ctx U).length = n := by
    rw [hss, List.length_map, linspace_length _ _ _ h2]
  have hcast : ((n - 1 : ℕ) : ℚ) = (n : ℚ) - 1 := by
    push_cast [Nat.cast_sub (by omega : 1 ≤ n)]
    ring
  have hne1 : ((n : ℚ) - 1) ≠ 0 := by
    have hc : (2 : ℚ) ≤ (n : ℚ) := by exact_mod_cast h2
    intro hc0
    nlinarith
  refine ⟨hlen, ?_, ?_, ?_, ?_⟩
  · intro i hi
    rw [linspace_getD _ _ _ _ h2 (by omega), linspace_getD _ _ _ _ h2 (by omega)]
    push_cast
    ring
  · have hfirst : (searchSpace ctx U).getD 0 default =
        ctx.interpolate U ((linspace 0 L n).getD 0 0) := by
      rw [hss]
      exact getD_map_of_lt _ 0 _ _ 0 (by rw [linspace_length _ _ _ h2]; omega)
    have hlast : (searchSpace ctx U).getD (n - 1) default =
        ctx.interpolate U ((linspace 0 L n).getD (n - 1) 0) := by
      rw [hss]
      exact getD_map_of_lt _ 0 _ _ (n - 1) (by rw [linspace_length _ _ _ h2]; omega)
    rw [hfirst, hlast, linspace_getD _ _ _ _ h2 (by omega),
      linspace_getD _ _ _ _ h2 (by omega)]
    have hv0 : (0 : ℚ) + ((0 : ℕ) : ℚ) * ((L - 0) / ((n : ℚ) - 1)) = 0 := by push_cast; ring
    have hvL : (0 : ℚ) + ((n - 1 : ℕ) : ℚ) * ((L - 0) / ((n : ℚ) - 1)) = L := by
      rw [hcast]
      field_simp
    rw [hv0, hvL, hwrap]
  · rw [productPairs,
      flattenL_length_uniform _ (searchSpace ctx U).length (fun a => List.length_map _ _),
      hlen]
  · intro i j hi hj
    have hrow := flattenL_getD_uniform
        (fun a => (searchSpace ctx U).map (fun b => (a, b)))
        (searchSpace ctx U).length (fun a => List.length_map _ _) (default, default)
        (searchSpace ctx U) i j (by omega) (by omega)
    rw [hlen] at hrow
    rw [productPairs, hrow, getD_map_of_lt _ default _ _ j (by omega)]

/-- Claim C7 (counterexample): with the source's `num_samples = 50` and a
union whose exterior ring has perimeter `4`, the sampled positions are *not*
pairwise distinct: `linspace(0, 4, 50)` contains both endpoints `0` and `4`,
and interpolation on the closed ring sends both to the same boundary point,
so the claim's "no sampled position is duplicated" fails. -/
theorem searchSpace_duplicate_sample : ¬ (searchSpace ctx7 0).Nodup := by
  intro h
  have h2 : (2 : ℕ) ≤ 50 := by omega
  have hss : searchSpace ctx7 0 = (linspace 0 4 50).map (ctx7.interpolate 0) := rfl
  have hlen : (searchSpace ctx7 0).length = 50 := by
    rw [hss, List.length_map, linspace_length _ _ _ h2]
  have h0 : (searchSpace ctx7 0).getD 0 0 = 0 := by
    rw [hss, getD_map_of_lt _ 0 _ _ 0 (by rw [linspace_length _ _ _ h2]; omega),
      linspace_getD _ _ _ _ h2 (by omega)]
    show ringPos 4 (0 + (0 : ℚ) * ((4 - 0) / (50 - 1))) = 0
    norm_num [ringPos]
  have h49 : (searchSpace ctx7 0).getD 49 0 = 0 := by
    rw [hss, getD_map_of_lt _ 0 _ _ 49 (by rw [linspace_length _ _ _ h2]; omega),
      linspace_getD _ _ _ _ h2 (by omega)]
    show ringPos 4 (0 + (49 : ℚ) * ((4 - 0) / (50 - 1))) = 0
    norm_num [ringPos]
  have hb0 : (0 : ℕ) < (searchSpace ctx7 0).length := by omega
  have hb49 : (49 : ℕ) < (searchSpace ctx7 0).length := by omega
  have hget : (searchSpace ctx7 0).get ⟨0, hb0⟩ = (searchSpace ctx7 0).get ⟨49, hb49⟩ := by
    have e0 : (searchSpace ctx7 0).getD 0 0 = (searchSpace ctx7 0).get ⟨0, hb0⟩ :=
      List.getD_eq_getElem _ _ hb0
    have e49 : (searchSpace ctx7 0).getD 49 0 = (searchSpace ctx7 0).get ⟨49, hb49⟩ :=
      List.getD_eq_getElem _ _ hb49
    rw [← e0, ← e49, h0, h49]
  have hinj := List.nodup_iff_injective_get.mp h hget
  have : (0 : ℕ) = 49 := congrArg Fin.val hinj
  omega

/-- Claim C7 (witness): the amended sampling statement applied to the
concrete `ctx7` (50 samples, perimeter 4, wrapping interpolation). -/
theorem searchSpace_sampling_witness :
    (searchSpace ctx7 0).length = 50 ∧
    (∀ i, i + 1 < 50 →
      (linspace 0 4 50).getD (i + 1) 0 - (linspace 0 4 50).getD i 0 = 4 / ((50 : ℚ) - 1)) ∧
    (searchSpace ctx7 0).getD 0 default = (searchSpace ctx7 0).getD (50 - 1) default ∧
    (productPairs (searchSpace ctx7 0)).length = 50 * 50 ∧
    (∀ i j, i < 50 → j < 50 →
      (productPairs (searchSpace ctx7 0)).getD (i * 50 + j) (default, default) =
        ((searchSpace ctx7 0).getD i default, (searchSpace ctx7 0).getD j default)) :=
  searchSpace_sampling_spec ctx7 0 50 4 rfl (by omega) rfl (by norm_num [ctx7, ringPos])

/-- Membership through descending insertion. -/
theorem mem_insDesc (x z : ℕ × ℤ) : ∀ l, z ∈ insDesc x l ↔ z = x ∨ z ∈ l := by
  intro l
  induction l with
  | nil => simp [insDesc]
  | cons y ys ih =>
    rw [insDesc]
    by_cases hc : x.2 < y.2
    · rw [if_pos hc]
      simp only [List.mem_cons, ih]
      tauto
    · rw [if_neg hc]
      simp only [List.mem_cons]

/-- Descending insertion preserves the descending pairwise order. -/
theorem pairwise_insDesc (x : ℕ × ℤ) :
    ∀ l, List.Pairwise (fun a b : ℕ × ℤ => b.2 ≤ a.2) l →
      List.Pairwise (fun a b : ℕ × ℤ => b.2 ≤ a.2) (insDesc x l) := by
  intro l
  induction l with
  | nil => intro _; simp [insDesc]
  | cons y ys ih =>
    intro h
    rw [insDesc]
    by_cases hc : x.2 < y.2
    · rw [if_pos hc]
      refine List.Pairwise.cons ?_ (ih (List.pairwise_cons.mp h).2)
      intro z hz
      rcases (mem_insDesc x z ys).mp hz with rfl | hz'
      · exact le_of_lt hc
      · exact (List.pairwise_cons.mp h).1 z hz'
    · rw [if_neg hc]
      refine List.Pairwise.cons ?_ h
      intro z hz
      rcases List.mem_cons.mp hz with rfl | hz'
      · exact le_of_not_lt hc
      · exact le_trans ((List.pairwise_cons.mp h).1 z hz') (le_of_not_lt hc)

/-- The descending sort is descending-sorted. -/
theorem sortDescBySnd_pairwise :
    ∀ l, List.Pairwise (fun a b : ℕ × ℤ => b.2 ≤ a.2) (sortDescBySnd l) := by
  intro l
  induction l with
  | nil => simp [sortDescBySnd]
  | cons x xs ih => exact pairwise_insDesc x _ ih

/-- Every entry of the descending snapshot is bounded by the head's cost. -/
theorem sortDescBySnd_head_le (l : List (ℕ × ℤ)) :
    ∀ e ∈ sortDescBySnd l, e.2 ≤ ((sortDescBySnd l).headD (0, 0)).2 := by
  have hp := sortDescBySnd_pairwise l
  cases hs : sortDescBySnd l with
  | nil => intro e he; simp at he
  | cons a t =>
    rw [hs] at hp
    intro e he
    rcases List.mem_cons.mp he with rfl | he'
    · simp
    · simpa using (List.pairwise_cons.mp hp).1 e he'

/-- Length of descending insertion. -/
theorem length_insDesc (x : ℕ × ℤ) : ∀ l, (insDesc x l).length = l.length + 1 := by
  intro l
  induction l with
  | nil => simp [insDesc]
  | cons y ys ih =>
    rw [insDesc]
    by_cases hc : x.2 < y.2
    · rw [if_pos hc]; simp [ih]
    · rw [if_neg hc]; simp

/-- The descending sort preserves length. -/
theorem length_sortDescBySnd : ∀ l : List (ℕ × ℤ), (sortDescBySnd l).length = l.length := by
  intro l
  induction l with
  | nil => rfl
  | cons x xs ih => rw [sortDescBySnd, length_insDesc, ih, List.length_cons]

/-- The cost snapshot has one entry per cell. -/
theorem getSortedCosts_length (ctx : DriverCtx Pol St) (d : Decomp Pol St) :
    (getSortedCosts ctx d).length = d.length := by
  rw [getSortedCosts, length_sortDescBySnd, List.length_map]
  simp

/-- The controller loop with `original_chi_costs` already recorded. -/
theorem runIterationsAux_some (ctx : DriverCtx Pol St) (driver : DriverFun Pol St)
    (hpres : ∀ d₁ adj i, ((driver d₁ adj i).2).length = d₁.length) :
    ∀ (n : ℕ) (d : Decomp Pol St) (o : List (ℕ × ℤ)), d ≠ [] →
      runIterationsAux ctx driver n d (some o) =
        .ok o (getSortedCosts ctx ((controllerRound ctx driver)^[n] d))
          ((controllerRound ctx driver)^[n] d) := by
  intro n
  induction n with
  | zero => intro d o _; simp [runIterationsAux]
  | succ m ih =>
    intro d o hd
    have hgne : getSortedCosts ctx d ≠ [] := by
      intro hc
      have hl := getSortedCosts_length ctx d
      rw [hc] at hl
      exact hd (List.length_eq_zero.mp hl.symm)
    have hd' : controllerRound ctx driver d ≠ [] := by
      intro hc
      have hl := hpres d (ctx.computeAdjacency d) ((getSortedCosts ctx d).headD (0, 0)).1
      rw [controllerRound] at hc
      rw [hc] at hl
      exact hd (List.length_eq_zero.mp hl.symm)
    rw [runIterationsAux]
    dsimp only
    rw [if_neg (by simpa using hgne)]
    rw [show (driver d (ctx.computeAdjacency d) ((getSortedCosts ctx d).headD (0, 0)).1).2
        = controllerRound ctx driver d from rfl]
    rw [ih (controllerRound ctx driver d) o hd', ← Function.iterate_succ_apply]

/-- Claim C8 (amended): for every `iterationCount ≥ 1` on a non-empty
decomposition (with a driver preserving the cell count), the controller
records the descending snapshot of the *initial* decomposition (computed in
the first loop iteration) as the before-snapshot, recomputes the final
descending snapshot after the loop, returns both, and each round starts the
driver at the first entry of that round's descending snapshot — which the
second conjunct shows carries the maximum cost.  For `iterationCount = 0`
the code instead raises `UnboundLocalError` (see the counterexample). -/
theorem runIterations_snapshots (ctx : DriverCtx Pol St) (driver : DriverFun Pol St)
    (n : ℕ) (d : Decomp Pol St) (hn : 1 ≤ n) (hd : d ≠ [])
    (hpres : ∀ d₁ adj i, ((driver d₁ adj i).2).length = d₁.length) :
    runIterations ctx driver n d =
      .ok (getSortedCosts ctx d)
        (getSortedCosts ctx ((controllerRound ctx driver)^[n] d))
        ((controllerRound ctx driver)^[n] d) ∧
    (∀ d' : Decomp Pol St, ∀ e ∈ getSortedCosts ctx d',
      e.2 ≤ ((getSortedCosts ctx d').headD (0, 0)).2) := by
  constructor
  · obtain ⟨m, rfl⟩ : ∃ m, n = m + 1 := ⟨n - 1, by omega⟩
    have hgne : getSortedCosts ctx d ≠ [] := by
      intro hc
      have hl := getSortedCosts_length ctx d
      rw [hc] at hl
      exact hd (List.length_eq_zero.mp hl.symm)
    have hd' : controllerRound ctx driver d ≠ [] := by
      intro hc
      have hl := hpres d (ctx.computeAdjacency d) ((getSortedCosts ctx d).headD (0, 0)).1
      rw [controllerRound] at hc
      rw [hc] at hl
      exact hd (List.length_eq_zero.mp hl.symm)
    rw [runIterations, runIterationsAux]
    dsimp only
    rw [if_neg (by simpa using hgne)]
    rw [show (driver d (ctx.computeAdjacency d) ((getSortedCosts ctx d).headD (0, 0)).1).2
        = controllerRound ctx driver d from rfl]
    rw [runIterationsAux_some ctx driver hpres m (controllerRound ctx driver d)
        (getSortedCosts ctx d) hd', ← Function.iterate_succ_apply]
  · intro d' e he
    rw [getSortedCosts] at he ⊢
    exact sortDescBySnd_head_le _ e he

/-- Claim C8 (counterexample): with `iterationCount = 0` — which the claim
says is allowed — the loop body never runs, `original_chi_costs` is never
assigned, and the final `return original_chi_costs, new_chi_costs` raises
`UnboundLocalError` instead of returning the two snapshots. -/
theorem runIterations_zero_unboundLocal :
    runIterations ctx8 driver8 0 d8 = .unboundLocalError := rfl

/-- Claim C8 (witness): the amended controller statement applied to the
concrete one-cell decomposition `d8` with one iteration. -/
theorem runIterations_snapshots_witness :
    runIterations ctx8 driver8 1 d8 =
      .ok (getSortedCosts ctx8 d8)
        (getSortedCosts ctx8 ((controllerRound ctx8 driver8)^[1] d8))
        ((controllerRound ctx8 driver8)^[1] d8) ∧
    (∀ d' : Decomp ℕ ℕ, ∀ e ∈ getSortedCosts ctx8 d',
      e.2 ≤ ((getSortedCosts ctx8 d').headD (0, 0)).2) :=
  runIterations_snapshots ctx8 driver8 1 d8 (by omega) (by decide)
    (fun _ _ _ => rfl)

/-- Membership through ascending insertion. -/
theorem mem_insAsc (x z : ℕ × ℤ) : ∀ l, z ∈ insAsc x l ↔ z = x ∨ z ∈ l := by
  intro l
  induction l with
  | nil => simp [insAsc]
  | cons y ys ih =>
    rw [insAsc]
    by_cases hc : y.2 < x.2
    · rw [if_pos hc]
      simp only [List.mem_cons, ih]
      tauto
    · rw [if_neg hc]
      simp only [List.mem_cons]

/-- The ascending sort has the same members as its input. -/
theorem mem_sortAscBySnd (z : ℕ × ℤ) : ∀ l, z ∈ sortAscBySnd l ↔ z ∈ l := by
  intro l
  induction l with
  | nil => simp [sortAscBySnd]
  | cons x xs ih =>
    rw [sortAscBySnd, mem_insAsc]
    simp [ih]

/-- An id produced by `neighborIds` indexes into the adjacency row. -/
theorem mem_neighborIds_lt (row : List Bool) (i : ℕ) (h : i ∈ neighborIds row) :
    i < row.length := by
  rw [neighborIds, List.mem_filterMap] at h
  obtain ⟨x, hx, hfx⟩ := h
  have hlt := List.fst_lt_of_mem_enum hx
  by_cases hb : x.2 = true
  · rw [if_pos hb, Option.some.injEq] at hfx
    exact hfx ▸ hlt
  · rw [if_neg hb] at hfx
    cases hfx

/-- Every entry of the sorted neighbor list pairs a valid row index with its
current cell cost. -/
theorem sortedNeighborCosts_mem [Inhabited Pol] [Inhabited St] (ctx : DriverCtx Pol St)
    (d : Decomp Pol St) (row : List Bool) (x : ℕ × ℤ)
    (hx : x ∈ sortedNeighborCosts ctx d row) :
    x.2 = cellCost ctx d x.1 ∧ x.1 < row.length := by
  rw [sortedNeighborCosts, mem_sortAscBySnd, List.mem_map] at hx
  obtain ⟨i, hi, rfl⟩ := hx
  exact ⟨rfl, mem_neighborIds_lt row i hi⟩

/-- If the neighbor loop returns `done false`, it never wrote the
decomposition (in the `chi_optimizer` driver a mutation always returns
`True` immediately). -/
theorem dftLoop_done_false [Inhabited Pol] [Inhabited St] (ctx : DriverCtx Pol St)
    (recur : Decomp Pol St → ℕ → DftOutcome Pol St)
    (hrec : ∀ d₁ c d₂, recur d₁ c = .done false d₂ → d₂ = d₁) (v : ℕ) (vcost : ℤ) :
    ∀ (ns : List (ℕ × ℤ)) (d d' : Decomp Pol St),
      dftLoop ctx recur v vcost ns d = .done false d' → d' = d := by
  intro ns
  induction ns with
  | nil =>
    intro d d' h
    rw [dftLoop] at h
    cases h
    rfl
  | cons x rest ih =>
    intro d d' h
    obtain ⟨cid, c⟩ := x
    rw [dftLoop] at h
    by_cases hg : c < vcost
    · rw [if_pos hg] at h
      cases hpw : ctx.pairwise (cellAt d v).1 (cellAt d cid).1
          (cellAt d v).2 (cellAt d cid).2 with
      | nonePy =>
        rw [hpw] at h
        cases hrc : recur d cid with
        | outOfFuel => rw [hrc] at h; cases h
        | nameError => rw [hrc] at h; cases h
        | done b d₂ =>
          rw [hrc] at h
          cases b
          · have hdd : d₂ = d := hrec d cid d₂ hrc
            subst hdd
            exact ih d₂ d' h
          · simp at h
      | emptyPy =>
        rw [hpw] at h
        exact ih d d' h
      | split p0 p1 =>
        rw [hpw] at h
        dsimp only at h
        split_ifs at h
        all_goals cases h
    · rw [if_neg hg] at h
      exact ih d d' h

/-- If the driver returns `done false`, the decomposition is unchanged. -/
theorem dftRecursion_done_false [Inhabited Pol] [Inhabited St] (ctx : DriverCtx Pol St) :
    ∀ (fuel : ℕ) (d : Decomp Pol St) (adj : List (List Bool)) (v : ℕ)
      (d' : Decomp Pol St),
      dftRecursion ctx fuel d adj v = .done false d' → d' = d := by
  intro fuel
  induction fuel with
  | zero =>
    intro d adj v d' h
    rw [dftRecursion] at h
    cases h
  | succ m ih =>
    intro d adj v d' h
    rw [dftRecursion] at h
    exact dftLoop_done_false ctx _ (fun d₁ c d₂ hh => ih d₁ adj c d₂ hh) _ _ _ _ _ h

/-- The recursion measure strictly decreases into a cheaper neighbor. -/
theorem lowerCount_lt_of_cost_lt [Inhabited Pol] [Inhabited St] (ctx : DriverCtx Pol St)
    (d : Decomp Pol St) (v cid : ℕ) (hcid : cid < d.length)
    (hc : cellCost ctx d cid < cellCost ctx d v) :
    lowerCount ctx d cid < lowerCount ctx d v := by
  have hsub : (Finset.range d.length).filter (fun i => cellCost ctx d i < cellCost ctx d cid)
      ⊆ (Finset.range d.length).filter (fun i => cellCost ctx d i < cellCost ctx d v) := by
    intro i hi
    rw [Finset.mem_filter] at hi ⊢
    exact ⟨hi.1, lt_trans hi.2 hc⟩
  refine Finset.card_lt_card ((Finset.ssubset_iff_of_subset hsub).mpr ?_)
  refine ⟨cid, Finset.mem_filter.mpr ⟨Finset.mem_range.mpr hcid, hc⟩, ?_⟩
  intro hmem
  exact absurd (Finset.mem_filter.mp hmem).2 (lt_irrefl _)

/-- The recursion measure is bounded by the number of cells. -/
theorem lowerCount_le_length [Inhabited Pol] [Inhabited St] (ctx : DriverCtx Pol St)
    (d : Decomp Pol St) (v : ℕ) : lowerCount ctx d v ≤ d.length :=
  le_trans (Finset.card_filter_le _ _) (by simp)

/-- The neighbor loop cannot exhaust the fuel if none of its guarded
recursive calls can. -/
theorem dftLoop_ne_outOfFuel [Inhabited Pol] [Inhabited St] (ctx : DriverCtx Pol St)
    (recur : Decomp Pol St → ℕ → DftOutcome Pol St)
    (hrecF : ∀ d₁ c d₂, recur d₁ c = .done false d₂ → d₂ = d₁)
    (v : ℕ) (vcost : ℤ) (d : Decomp Pol St) :
    ∀ ns : List (ℕ × ℤ), (∀ x ∈ ns, x.2 < vcost → recur d x.1 ≠ .outOfFuel) →
      dftLoop ctx recur v vcost ns d ≠ .outOfFuel := by
  intro ns
  induction ns with
  | nil =>
    intro _
    rw [dftLoop]
    simp
  | cons x rest ih =>
    intro hsafe
    obtain ⟨cid, c⟩ := x
    rw [dftLoop]
    by_cases hg : c < vcost
    · rw [if_pos hg]
      cases hpw : ctx.pairwise (cellAt d v).1 (cellAt d cid).1
          (cellAt d v).2 (cellAt d cid).2 with
      | nonePy =>
        cases hrc : recur d cid with
        | outOfFuel =>
          exact absurd hrc (hsafe (cid, c) (List.mem_cons_self _ _) hg)
        | nameError => simp
        | done b d₂ =>
          cases b
          · have hdd : d₂ = d := hrecF d cid d₂ hrc
            subst hdd
            exact ih (fun y hy => hsafe y (List.mem_cons_of_mem _ hy))
          · simp
      | emptyPy => exact ih (fun y hy => hsafe y (List.mem_cons_of_mem _ hy))
      | split p0 p1 =>
        dsimp only
        split_ifs <;> simp
    · rw [if_neg hg]
      exact ih (fun y hy => hsafe y (List.mem_cons_of_mem _ hy))

/-- Strong-induction core of the termination theorem: fuel exceeding the
number of strictly cheaper cells is never exhausted. -/
theorem dftRecursion_ne_outOfFuel_aux [Inhabited Pol] [Inhabited St]
    (ctx : DriverCtx Pol St) :
    ∀ (k fuel : ℕ) (d : Decomp Pol St) (adj : List (List Bool)) (v : ℕ),
      (∀ row ∈ adj, row.length ≤ d.length) →
      lowerCount ctx d v ≤ k → k < fuel →
      dftRecursion ctx fuel d adj v ≠ .outOfFuel := by
  intro k
  induction k using Nat.strong_induction_on with
  | _ k IH =>
    intro fuel d adj v hrows hk hkf
    obtain ⟨f, rfl⟩ : ∃ f, fuel = f + 1 := ⟨fuel - 1, by omega⟩
    rw [dftRecursion]
    apply dftLoop_ne_outOfFuel ctx _
      (fun d₁ c d₂ hh => dftRecursion_done_false ctx f d₁ adj c d₂ hh) v _ d
    intro x hx hxlt
    obtain ⟨hcost, hbound⟩ := sortedNeighborCosts_mem ctx d (adj.getD v []) x hx
    have hxd : x.1 < d.length := by
      rcases lt_or_ge v adj.length with hv | hv
      · have hmem : adj.getD v [] ∈ adj := by
          rw [List.getD_eq_getElem _ _ hv]
          exact List.getElem_mem _
        exact lt_of_lt_of_le hbound (hrows _ hmem)
      · have hrow : adj.getD v [] = [] := List.getD_eq_default _ _ hv
        rw [hrow] at hbound
        simp at hbound
    have hcc : cellCost ctx d x.1 < cellCost ctx d v := hcost ▸ hxlt
    have hlt : lowerCount ctx d x.1 < lowerCount ctx d v :=
      lowerCount_lt_of_cost_lt ctx d v x.1 hxd hcc
    exact IH (lowerCount ctx d x.1) (by omega) f d adj x.1 hrows (le_refl _) (by omega)

/-- Claim C10: with a pure cost oracle, the driver's depth-first recursion
terminates, with depth bounded by the number of cells: it descends only
into a neighbor whose cost is strictly below the current cell's (the
`cell_chi_cost < max_vertex_cost` guard), and no mutation precedes a
recursive call (a success returns `True` through every level immediately),
so the strictly decreasing measure `lowerCount` bounds the depth and fuel
`numberOfCells + 1` is never exhausted. -/
theorem dftRecursion_fuel_sufficient [Inhabited Pol] [Inhabited St]
    (ctx : DriverCtx Pol St) (d : Decomp Pol St) (adj : List (List Bool)) (v : ℕ)
    (hrows : ∀ row ∈ adj, row.length ≤ d.length) :
    dftRecursion ctx (d.length + 1) d adj v ≠ .outOfFuel :=
  dftRecursion_ne_outOfFuel_aux ctx d.length (d.length + 1) d adj v hrows
    (lowerCount_le_length ctx d v) (by omega)

/-- Claim C10 (witness): the termination bound applied to the concrete
two-cell instance `ctx10`. -/
theorem dftRecursion_fuel_witness :
    (∀ row ∈ adj10, row.length ≤ d10.length) ∧
    dftRecursion ctx10 (d10.length + 1) d10 adj10 0 ≠ .outOfFuel :=
  ⟨by decide, dftRecursion_fuel_sufficient ctx10 d10 adj10 0 (by decide)⟩

end CoveragePlanner
